import Mathlib

/-!
Shallow embedding of the `magnetic` package (`state.py`, `transitions.py`).

Python `Fraction` quantum numbers are modelled as `ℚ` (the code keeps them
exact).  Floating-point energies are idealised as exact rationals, since the
code only performs field arithmetic on them; values produced by the
transcendental calls `np.exp` and `10 ** x` live in `ℝ`.
`scipy.special.voigt_profile` is an external library function and enters the
embedding as an explicit function parameter `V`.
-/

/-- Python `int()` applied to a rational: truncation toward zero. -/
def pyInt (q : ℚ) : ℤ := if 0 ≤ q then ⌊q⌋ else ⌈q⌉

/-- `numpy.arange(start, stop)` with unit step: the values `start + k` for
natural `k < ⌈stop - start⌉`. -/
def arange (start stop : ℚ) : List ℚ :=
  (List.range (⌈stop - start⌉).toNat).map (fun k : ℕ => start + (k : ℚ))

/-- The sequence `a, a + 1, …` of values `≤ b`: the plain reading of the
specification text "x, x+1, …, y". -/
def specRange (a b : ℚ) : List ℚ :=
  (List.range (⌊b - a⌋ + 1).toNat).map (fun k : ℕ => a + (k : ℚ))

/-- `SubState = namedtuple("SubState", "mJ k")` from `state.py`. -/
structure SubState where
  mJ : ℚ
  k : ℚ
deriving DecidableEq

/-- The data stored by `state.State.__init__` after the conversions
`float(k0)`, `Fraction(J)`, `int(L)`, `Fraction(S)`. -/
structure State where
  k0 : ℚ
  J : ℚ
  L : ℤ
  S : ℚ
deriving DecidableEq

/-- The check performed by `State.__init__`: `J`, `L`, `S` non-negative and
`J ∈ np.arange(abs(L - S), L + S + 1)`. -/
def State.Valid (s : State) : Prop :=
  ¬(s.J < 0 ∨ (s.L : ℚ) < 0 ∨ s.S < 0) ∧
    s.J ∈ arange |(s.L : ℚ) - s.S| ((s.L : ℚ) + s.S + 1)

instance (s : State) : Decidable s.Valid := by
  unfold State.Valid
  infer_instance

/-- `State(k0, J, L, S)`: `none` models the two `ValueError` exits of
`__init__`; on success the fully initialised object is returned. -/
def State.mk? (k0 J : ℚ) (L : ℤ) (S : ℚ) : Option State :=
  if J < 0 ∨ (L : ℚ) < 0 ∨ S < 0 then none
  else if J ∈ arange |(L : ℚ) - S| ((L : ℚ) + S + 1) then some ⟨k0, J, L, S⟩
  else none

/-- The Landé factor `State.g` (cached property in `state.py`). -/
def State.g (s : State) : ℚ :=
  if s.S = 0 then 1
  else if s.L = 0 then 2
  else if (s.L : ℚ) = s.S then 3 / 2
  else if s.J = 0 then 0
  else
    let JJ1 := s.J * (s.J + 1)
    let LL1 := (s.L : ℚ) * ((s.L : ℚ) + 1)
    let SS1 := s.S * (s.S + 1)
    1 + (JJ1 + SS1 - LL1) / (2 * JJ1)

/-- `State.mJs`: `np.arange(-J, J + 1)`. -/
def State.mJs (s : State) : List ℚ := arange (-s.J) (s.J + 1)

/-- `State.splitting(mJ, B) = 0.046686 * B * (mJ * g)`. -/
def State.splitting (s : State) (mJ B : ℚ) : ℚ := 0.046686 * B * (mJ * s.g)

/-- `State.energy(mJ, B) = k0 + splitting(mJ, B)`. -/
def State.energy (s : State) (mJ B : ℚ) : ℚ := s.k0 + s.splitting mJ B

/-- `State.energies(B)`: the list `[SubState(mJ, energy(mJ, B)) for mJ in mJs]`. -/
def State.energies (s : State) (B : ℚ) : List SubState :=
  s.mJs.map (fun mJ => ⟨mJ, s.energy mJ B⟩)

/-- The data of `transitions.Multiplet`.  `log_gf` holds the explicit
key/value pairs of the underlying `defaultdict`. -/
structure Multiplet where
  Lower_states : List State
  Upper_states : List State
  log_gf : List ((ℚ × ℚ) × ℚ)
deriving DecidableEq

/-- `itertools.product` of two lists. -/
def listProd {α β : Type} (l : List α) (u : List β) : List (α × β) :=
  (l.map (fun a => u.map (fun b => (a, b)))).flatten

/-- `Multiplet.states_outer_product`: `product(Upper_states, Lower_states)`. -/
def Multiplet.states_outer_product (m : Multiplet) : List (State × State) :=
  listProd m.Upper_states m.Lower_states

/-- Reading `m.log_gf[key]` as a pure lookup: the stored value, or the
`defaultdict` default `-10.0`. -/
def Multiplet.log_gf_get (m : Multiplet) (key : ℚ × ℚ) : ℚ :=
  (m.log_gf.lookup key).getD (-10)

/-- `Multiplet.relative_strength` (Höhn 1925 relative intensities); `none`
models the final `raise ValueError`. -/
def relative_strength (Ji Jf mi mf : ℚ) : Option ℚ :=
  let dJ := pyInt (Jf - Ji)
  let dm := pyInt (mf - mi)
  if 1 < |dm| then some 0
  else
    let m_ : ℚ := (dm : ℚ) * mi
    if dJ = 0 then
      some (if dm = 0 then mi ^ 2 else (Ji - m_) * (Ji + m_ + 1) / 4)
    else if dJ = 1 then
      some (if dm = 0 then (Ji + 1) ^ 2 - mi ^ 2 else (Ji + m_ + 1) * (Ji + m_ + 2) / 4)
    else if dJ = -1 then
      some (if dm = 0 then Ji ^ 2 - mi ^ 2 else (Ji - m_) * (Ji - m_ - 1) / 4)
    else none

/-- The value of `relative_strength`; inside `transitions` the `ValueError`
branch is unreachable because the ΔJ selection rule has already been applied,
so the default value `0` is never used there. -/
def relVal (Ji Jf mi mf : ℚ) : ℚ := (relative_strength Ji Jf mi mf).getD 0

/-- `total_strength` as computed inside `Multiplet.transitions`: the sum of
`relative_strength(lS.J, uS.J, ls.mJ, us.mJ)` over
`product(l_substates, u_substates)`. -/
def total_strength (lS uS : State) (B : ℚ) : ℚ :=
  ((listProd (lS.energies B) (uS.energies B)).map
    (fun q => relVal lS.J uS.J q.1.mJ q.2.mJ)).sum

/-- One item yielded by `Multiplet.transitions`:
`(w_line, gf_, lS, uS, dmJ, boltz)`. -/
structure Transition where
  w_line : ℚ
  gf : ℝ
  lower : State
  upper : State
  dmJ : ℤ
  boltz : ℝ

/-- The record built in the body of the inner loop of
`Multiplet.transitions` for the sublevel pair `q = (ls, us)`. -/
noncomputable def mkTransition (gf0 : ℝ) (lS uS : State) (total T : ℚ)
    (q : SubState × SubState) : Transition :=
  { w_line := 1e8 / (q.2.k - q.1.k)
    gf := gf0 * ((relVal lS.J uS.J q.1.mJ q.2.mJ : ℚ) : ℝ) / ((total : ℚ) : ℝ)
    lower := lS
    upper := uS
    dmJ := pyInt (q.2.mJ - q.1.mJ)
    boltz := Real.exp (-(q.1.k / (0.695 * T))) }

/-- `Multiplet.transitions(B, T)`, the generator collected into a list. -/
noncomputable def Multiplet.transitions (m : Multiplet) (B T : ℚ) : List Transition :=
  (m.states_outer_product.map (fun p =>
    let uS := p.1
    let lS := p.2
    if 1 < |uS.J - lS.J| then []
    else if uS.J = 0 ∧ lS.J = 0 then []
    else
      let total := total_strength lS uS B
      let gf0 : ℝ := (10 : ℝ) ^ ((m.log_gf_get (lS.J, uS.J) : ℝ))
      ((listProd (lS.energies B) (uS.energies B)).map (fun q =>
        if 1 < |pyInt (q.2.mJ - q.1.mJ)| then []
        else [mkTransition gf0 lS uS total T q])).flatten)).flatten

/-- `Multiplet.line_profile`; `V` stands for `scipy.special.voigt_profile`,
called as `V (x - x_line * z) (res_g / 2.355) (res_l / 2)`. -/
noncomputable def Multiplet.line_profile (m : Multiplet) (V : ℝ → ℝ → ℝ → ℝ)
    (B : ℚ) (x : ℝ) (res_l res_g : ℚ) (psi : ℝ) (T rv : ℚ) : List ℝ :=
  let z : ℚ := 1 + rv / 2.998e5
  let cos2psi := Real.cos psi ^ 2
  let sin2psi := Real.sin psi ^ 2
  (m.transitions B T).map (fun tr =>
    let rot_factor := if tr.dmJ = 0 then sin2psi else 1 + cos2psi
    tr.boltz * tr.gf * rot_factor *
      V (x - (tr.w_line : ℝ) * (z : ℝ)) ((res_g : ℝ) / 2.355) ((res_l : ℝ) / 2))

/-- `Multiplet.profile` evaluated at one point `x` of the wavelength grid. -/
noncomputable def Multiplet.profile (m : Multiplet) (V : ℝ → ℝ → ℝ → ℝ)
    (B : ℚ) (x : ℝ) (strength : ℝ) (res_l res_g : ℚ) (psi : ℝ) (T rv : ℚ) : ℝ :=
  Real.exp (-strength * (m.line_profile V B x res_l res_g psi T rv).sum)

/-- A single `defaultdict.__getitem__`: a missing key is inserted with the
default value `-10.0` before it is returned. -/
def ddAccess (d : List ((ℚ × ℚ) × ℚ)) (key : ℚ × ℚ) : List ((ℚ × ℚ) × ℚ) :=
  if (d.lookup key).isSome then d else d ++ [(key, -10)]

/-- The oscillator-strength dictionary after one full run of
`Multiplet.transitions`: the generator evaluates `self.log_gf[lS.J, uS.J]`
once for every selection-rule-allowed level pair, and each such access may
insert a default entry into the `defaultdict`. -/
def Multiplet.log_gf_after (m : Multiplet) : List ((ℚ × ℚ) × ℚ) :=
  m.states_outer_product.foldl (fun d p =>
    if 1 < |p.1.J - p.2.J| then d
    else if p.1.J = 0 ∧ p.2.J = 0 then d
    else ddAccess d (p.2.J, p.1.J)) m.log_gf

/-- The enumeration claimed by the specification, read literally: level
pairs filtered by `|ΔJ| ≤ 1` and by "not both J equal to 0", sublevel pairs
filtered by `|ΔmJ| ≤ 1` where `ΔmJ = us.mJ - ls.mJ` is the exact rational
difference. -/
noncomputable def Multiplet.transitionsStated (m : Multiplet) (B T : ℚ) : List Transition :=
  (m.states_outer_product.map (fun p =>
    if |p.1.J - p.2.J| ≤ 1 ∧ ¬(p.1.J = 0 ∧ p.2.J = 0) then
      ((listProd (p.2.energies B) (p.1.energies B)).map (fun q =>
        if |q.2.mJ - q.1.mJ| ≤ 1 then
          [mkTransition ((10 : ℝ) ^ ((m.log_gf_get (p.2.J, p.1.J) : ℝ))) p.2 p.1
            (total_strength p.2 p.1 B) T q]
        else [])).flatten
    else [])).flatten

/-- The enumeration of the amended claim: as `transitionsStated`, except
that a sublevel pair is kept exactly when `|ΔmJ| < 2` (equivalently, when
the code's truncated `int(ΔmJ)` lies in `{-1, 0, 1}`). -/
noncomputable def Multiplet.transitionsSpec (m : Multiplet) (B T : ℚ) : List Transition :=
  (m.states_outer_product.map (fun p =>
    if |p.1.J - p.2.J| ≤ 1 ∧ ¬(p.1.J = 0 ∧ p.2.J = 0) then
      ((listProd (p.2.energies B) (p.1.energies B)).map (fun q =>
        if |q.2.mJ - q.1.mJ| < 2 then
          [mkTransition ((10 : ℝ) ^ ((m.log_gf_get (p.2.J, p.1.J) : ℝ))) p.2 p.1
            (total_strength p.2 p.1 B) T q]
        else [])).flatten
    else [])).flatten

/-- The Höhn (1925) closed-form reference exactly as the amended claim C1
states it: the case boundaries are taken on the truncated integers
`dJ = int(Jf - Ji)`, `dm = int(mf - mi)`, with `m_ = dm * mi`. -/
def hoehnReference (Ji Jf mi mf : ℚ) : Option ℚ :=
  let dJ := pyInt (Jf - Ji)
  let dm := pyInt (mf - mi)
  let m_ : ℚ := (dm : ℚ) * mi
  if 1 < |dm| then some 0
  else if dJ = 0 then
    some (if dm = 0 then mi ^ 2 else (Ji - m_) * (Ji + m_ + 1) / 4)
  else if dJ = 1 then
    some (if dm = 0 then (Ji + 1) ^ 2 - mi ^ 2 else (Ji + m_ + 1) * (Ji + m_ + 2) / 4)
  else if dJ = -1 then
    some (if dm = 0 then Ji ^ 2 - mi ^ 2 else (Ji - m_) * (Ji - m_ - 1) / 4)
  else none

/-- The Landé-factor case split in the exact wording of claim C5. -/
def landeGSpec (s : State) : ℚ :=
  if s.S = 0 then 1
  else if s.L = 0 then 2
  else if (s.L : ℚ) = s.S then 3 / 2
  else if s.J = 0 then 0
  else 1 + (s.J * (s.J + 1) + s.S * (s.S + 1) - (s.L : ℚ) * ((s.L : ℚ) + 1)) /
    (2 * (s.J * (s.J + 1)))


/-- A mixed-parity multiplet (lower `J = 1/2`, upper `J = 1`): both states are
constructor-valid and the level pair passes the selection rules. -/
def mC3 : Multiplet := ⟨[⟨0, 1/2, 0, 1/2⟩], [⟨100, 1, 1, 0⟩], [((1/2, 1), 0)]⟩

/-- A two-level multiplet (lower `J = 0`, upper `J = 1`) with
`log_gf = {(0, 1) : 0.0}`; both states are constructor-valid. -/
def mC7 : Multiplet := ⟨[⟨0, 0, 0, 0⟩], [⟨20000, 1, 1, 0⟩], [((0, 1), 0)]⟩

/-! ### Basic facts about `arange` and `pyInt` -/

lemma arange_nil {a b : ℚ} (h : b - a ≤ 0) : arange a b = [] := by
  have h0 : ⌈b - a⌉ ≤ 0 := Int.ceil_le.mpr (by exact_mod_cast h)
  simp [arange, Int.toNat_of_nonpos h0]

lemma arange_cons {a b : ℚ} (h : 0 < b - a) : arange a b = a :: arange (a + 1) b := by
  have h1 : ⌈b - a⌉ = ⌈b - (a + 1)⌉ + 1 := by
    have e : b - (a + 1) = (b - a) - 1 := by ring
    rw [e, Int.ceil_sub_one]
    ring
  have hpos := Int.ceil_pos.mpr h
  unfold arange
  rw [h1]
  have h3 : ∀ n : ℤ, 0 ≤ n → (n + 1).toNat = n.toNat + 1 := by
    intro n hn
    omega
  rw [h3 _ (by omega), List.range_succ_eq_map]
  rw [List.map_cons, List.map_map]
  congr 1
  · norm_num
  · apply List.map_congr_left
    intro k _
    simp only [Function.comp_apply, Nat.succ_eq_add_one]
    push_cast
    ring

lemma mem_arange {a b q : ℚ} :
    q ∈ arange a b ↔ ∃ k : ℕ, k < (⌈b - a⌉).toNat ∧ q = a + k := by
  simp only [arange, List.mem_map, List.mem_range]
  constructor
  · rintro ⟨k, hk, rfl⟩
    exact ⟨k, hk, rfl⟩
  · rintro ⟨k, hk, rfl⟩
    exact ⟨k, hk, rfl⟩

lemma mem_arange_bounds {a b q : ℚ} (h : q ∈ arange a b) :
    (∃ k : ℕ, q = a + k) ∧ a ≤ q ∧ q < b := by
  rcases mem_arange.mp h with ⟨k, hk, rfl⟩
  have hk0 : (0:ℚ) ≤ (k : ℚ) := Nat.cast_nonneg k
  have hkz : (k : ℤ) < ⌈b - a⌉ := by omega
  have hkq : (k : ℚ) < ((⌈b - a⌉ : ℤ) : ℚ) := by exact_mod_cast hkz
  have hceil : ((⌈b - a⌉ : ℤ) : ℚ) < (b - a) + 1 := Int.ceil_lt_add_one (b - a)
  have hkk : (k : ℚ) + 1 ≤ ((⌈b - a⌉ : ℤ) : ℚ) := by exact_mod_cast hkz
  refine ⟨⟨k, rfl⟩, by linarith, by linarith⟩

lemma pyInt_intCast (z : ℤ) : pyInt (z : ℚ) = z := by
  unfold pyInt
  split <;> simp

lemma of_pyInt_eq_zero {q : ℚ} (h : pyInt q = 0) : -1 < q ∧ q < 1 := by
  unfold pyInt at h
  by_cases h0 : 0 ≤ q
  · rw [if_pos h0] at h
    have := Int.floor_eq_iff.mp h
    push_cast at this
    constructor <;> linarith [this.1, this.2]
  · rw [if_neg h0] at h
    have := Int.ceil_eq_iff.mp h
    push_cast at this
    constructor <;> linarith [this.1, this.2]

lemma of_pyInt_eq_one {q : ℚ} (h : pyInt q = 1) : 1 ≤ q ∧ q < 2 := by
  unfold pyInt at h
  by_cases h0 : 0 ≤ q
  · rw [if_pos h0] at h
    have := Int.floor_eq_iff.mp h
    push_cast at this
    exact ⟨this.1, by linarith [this.2]⟩
  · rw [if_neg h0] at h
    have := Int.ceil_eq_iff.mp h
    push_cast at this
    exfalso
    linarith [not_le.mp h0, this.1]

lemma of_pyInt_eq_neg_one {q : ℚ} (h : pyInt q = -1) : -2 < q ∧ q ≤ -1 := by
  unfold pyInt at h
  by_cases h0 : 0 ≤ q
  · rw [if_pos h0] at h
    have := Int.floor_eq_iff.mp h
    push_cast at this
    exfalso
    linarith [this.2]
  · rw [if_neg h0] at h
    have := Int.ceil_eq_iff.mp h
    push_cast at this
    exact ⟨by linarith [this.1], this.2⟩

lemma pyInt_of_abs_le_one {q : ℚ} (h : |q| ≤ 1) :
    (pyInt q = 0 ∧ -1 < q ∧ q < 1) ∨ (pyInt q = 1 ∧ q = 1) ∨ (pyInt q = -1 ∧ q = -1) := by
  rcases abs_le.mp h with ⟨hl, hr⟩
  by_cases h1 : q = 1
  · subst h1
    right; left
    refine ⟨?_, rfl⟩
    unfold pyInt
    rw [if_pos (by norm_num)]
    exact_mod_cast Int.floor_intCast (α := ℚ) 1
  by_cases h2 : q = -1
  · subst h2
    right; right
    refine ⟨?_, rfl⟩
    unfold pyInt
    rw [if_neg (by norm_num)]
    exact_mod_cast Int.ceil_intCast (α := ℚ) (-1)
  · left
    have hl' : -1 < q := lt_of_le_of_ne hl (Ne.symm h2)
    have hr' : q < 1 := lt_of_le_of_ne hr h1
    refine ⟨?_, hl', hr'⟩
    unfold pyInt
    by_cases h0 : 0 ≤ q
    · rw [if_pos h0]
      exact Int.floor_eq_iff.mpr ⟨by exact_mod_cast h0, by push_cast; linarith⟩
    · rw [if_neg h0]
      exact Int.ceil_eq_iff.mpr ⟨by push_cast; linarith, by push_cast; linarith [not_le.mp h0]⟩

lemma pyInt_abs_le_one_iff {q : ℚ} : |pyInt q| ≤ 1 ↔ |q| < 2 := by
  constructor
  · intro h
    rcases abs_le.mp h with ⟨hl, hr⟩
    have hd : pyInt q = -1 ∨ pyInt q = 0 ∨ pyInt q = 1 := by omega
    rcases hd with h | h | h
    · rcases of_pyInt_eq_neg_one h with ⟨h1, h2⟩
      rw [abs_lt]
      constructor <;> linarith
    · rcases of_pyInt_eq_zero h with ⟨h1, h2⟩
      rw [abs_lt]
      constructor <;> linarith
    · rcases of_pyInt_eq_one h with ⟨h1, h2⟩
      rw [abs_lt]
      constructor <;> linarith
  · intro h
    rcases abs_lt.mp h with ⟨hl, hr⟩
    rw [abs_le]
    unfold pyInt
    by_cases h0 : 0 ≤ q
    · rw [if_pos h0]
      constructor
      · have : (0:ℤ) ≤ ⌊q⌋ := Int.floor_nonneg.mpr h0
        omega
      · have : ⌊q⌋ < 2 := Int.floor_lt.mpr (by exact_mod_cast hr)
        omega
    · rw [if_neg h0]
      constructor
      · have : (-2 : ℤ) < ⌈q⌉ := Int.lt_ceil.mpr (by exact_mod_cast hl)
        omega
      · have : ⌈q⌉ ≤ 0 := Int.ceil_le.mpr (by push_cast; linarith [not_le.mp h0])
        omega

lemma sum_pos_of_mem {l : List ℚ} (h0 : ∀ x ∈ l, 0 ≤ x) {a : ℚ} (ha : a ∈ l)
    (hpos : 0 < a) : 0 < l.sum := by
  induction l with
  | nil => simp at ha
  | cons x xs ih =>
    rw [List.sum_cons]
    rcases List.mem_cons.mp ha with rfl | hmem
    · have : 0 ≤ xs.sum := List.sum_nonneg (fun y hy => h0 y (List.mem_cons_of_mem _ hy))
      linarith
    · have hx : 0 ≤ x := h0 x (List.mem_cons_self _ _)
      have : 0 < xs.sum := ih (fun y hy => h0 y (List.mem_cons_of_mem _ hy)) hmem
      linarith

/-! ### Evaluating and bounding `relative_strength` -/

lemma relative_strength_cases {Ji Jf mi mf : ℚ} {dJ dm : ℤ}
    (hJ : pyInt (Jf - Ji) = dJ) (hm : pyInt (mf - mi) = dm) :
    relative_strength Ji Jf mi mf =
      if 1 < |dm| then some 0
      else if dJ = 0 then
        some (if dm = 0 then mi ^ 2 else (Ji - (dm : ℚ) * mi) * (Ji + (dm : ℚ) * mi + 1) / 4)
      else if dJ = 1 then
        some (if dm = 0 then (Ji + 1) ^ 2 - mi ^ 2
          else (Ji + (dm : ℚ) * mi + 1) * (Ji + (dm : ℚ) * mi + 2) / 4)
      else if dJ = -1 then
        some (if dm = 0 then Ji ^ 2 - mi ^ 2
          else (Ji - (dm : ℚ) * mi) * (Ji - (dm : ℚ) * mi - 1) / 4)
      else none := by
  simp only [relative_strength, hJ, hm]

lemma relative_strength_nonneg_core {Ji Jf mi mf : ℚ} {ki : ℕ}
    (hki : mi = -Ji + ki) (hmi : mi ≤ Ji) (hmf : mf ≤ Jf) (hdJ : |Jf - Ji| ≤ 1) :
    ∃ v, relative_strength Ji Jf mi mf = some v ∧ 0 ≤ v := by
  have hkc : (0:ℚ) ≤ (ki : ℚ) := Nat.cast_nonneg ki
  have hmin : -Ji ≤ mi := by rw [hki]; linarith
  by_cases hguard : 1 < |pyInt (mf - mi)|
  · refine ⟨0, ?_, le_refl 0⟩
    rw [relative_strength_cases rfl rfl, if_pos hguard]
  have habs := abs_le.mp (not_lt.mp hguard)
  have hdm3 : pyInt (mf - mi) = -1 ∨ pyInt (mf - mi) = 0 ∨ pyInt (mf - mi) = 1 := by
    omega
  rcases pyInt_of_abs_le_one hdJ with ⟨hJ0, _, _⟩ | ⟨hJ1, hJe⟩ | ⟨hJn, hJe⟩
  · -- dJ = 0
    rcases hdm3 with hdm | hdm | hdm
    · rw [relative_strength_cases hJ0 hdm]
      norm_num
      linarith [mul_nonneg (by linarith : (0:ℚ) ≤ Ji + mi) (by linarith : (0:ℚ) ≤ Ji - mi + 1)]
    · rw [relative_strength_cases hJ0 hdm]
      norm_num
      positivity
    · rw [relative_strength_cases hJ0 hdm]
      norm_num
      linarith [mul_nonneg (by linarith : (0:ℚ) ≤ Ji - mi) (by linarith : (0:ℚ) ≤ Ji + mi + 1)]
  · -- dJ = 1
    rcases hdm3 with hdm | hdm | hdm
    · rw [relative_strength_cases hJ1 hdm]
      norm_num
      linarith [mul_nonneg (by linarith : (0:ℚ) ≤ Ji - mi + 1) (by linarith : (0:ℚ) ≤ Ji - mi + 2)]
    · rw [relative_strength_cases hJ1 hdm]
      norm_num
      nlinarith [mul_nonneg (by linarith : (0:ℚ) ≤ Ji - mi) (by linarith : (0:ℚ) ≤ Ji + mi),
        (by linarith : (0:ℚ) ≤ Ji)]
    · rw [relative_strength_cases hJ1 hdm]
      norm_num
      linarith [mul_nonneg (by linarith : (0:ℚ) ≤ Ji + mi + 1) (by linarith : (0:ℚ) ≤ Ji + mi + 2)]
  · -- dJ = -1
    rcases hdm3 with hdm | hdm | hdm
    · -- dm = -1 : the value is (Ji + mi) * (Ji + mi - 1) / 4 with Ji + mi = ki ∈ ℕ
      rw [relative_strength_cases hJn hdm]
      norm_num
      have he : Ji + mi = (ki : ℚ) := by rw [hki]; ring
      rcases ki with _ | n
      · norm_num at he
        nlinarith [he]
      · push_cast at he
        nlinarith [he, (by positivity : (0:ℚ) ≤ (n : ℚ))]
    · rw [relative_strength_cases hJn hdm]
      norm_num
      nlinarith [mul_nonneg (by linarith : (0:ℚ) ≤ Ji - mi) (by linarith : (0:ℚ) ≤ Ji + mi)]
    · -- dm = 1 : mi ≤ mf - 1 ≤ Jf - 1 = Ji - 2
      rw [relative_strength_cases hJn hdm]
      norm_num
      have hmm := of_pyInt_eq_one hdm
      linarith [mul_nonneg (by linarith [hmm.1, hJe] : (0:ℚ) ≤ Ji - mi)
        (by linarith [hmm.1, hJe] : (0:ℚ) ≤ Ji - mi - 1)]

lemma relVal_nonneg_core {Ji Jf mi mf : ℚ} {ki : ℕ}
    (hki : mi = -Ji + ki) (hmi : mi ≤ Ji) (hmf : mf ≤ Jf) (hdJ : |Jf - Ji| ≤ 1) :
    0 ≤ relVal Ji Jf mi mf := by
  rcases relative_strength_nonneg_core hki hmi hmf hdJ with ⟨v, hv, h0⟩
  rw [relVal, hv]
  exact h0

/-! ### Membership facts for sublevel lists and products -/

lemma mem_listProd {α β : Type} {l : List α} {u : List β} {a : α} {b : β} :
    (a, b) ∈ listProd l u ↔ a ∈ l ∧ b ∈ u := by
  unfold listProd
  rw [List.mem_flatten]
  constructor
  · rintro ⟨L, hL, hx⟩
    rcases List.mem_map.mp hL with ⟨a', ha', rfl⟩
    rcases List.mem_map.mp hx with ⟨b', hb', heq⟩
    rcases Prod.mk.injEq a' b' a b ▸ heq with ⟨rfl, rfl⟩
    exact ⟨ha', hb'⟩
  · rintro ⟨ha, hb⟩
    exact ⟨_, List.mem_map.mpr ⟨a, ha, rfl⟩, List.mem_map.mpr ⟨b, hb, rfl⟩⟩

lemma mem_energies {s : State} {B : ℚ} {p : SubState} (hp : p ∈ s.energies B) :
    (∃ k : ℕ, p.mJ = -s.J + k) ∧ -s.J ≤ p.mJ ∧ p.mJ < s.J + 1 ∧
      p.k = s.k0 + 0.046686 * B * (p.mJ * s.g) := by
  rcases List.mem_map.mp hp with ⟨mJ, hm, rfl⟩
  have hb := mem_arange_bounds (show mJ ∈ arange (-s.J) (s.J + 1) from hm)
  exact ⟨hb.1, hb.2.1, hb.2.2, rfl⟩

lemma energies_mem_of_mem_mJs {s : State} {B mJ : ℚ} (h : mJ ∈ s.mJs) :
    (⟨mJ, s.k0 + 0.046686 * B * (mJ * s.g)⟩ : SubState) ∈ s.energies B :=
  List.mem_map.mpr ⟨mJ, h, rfl⟩

lemma mem_energies_halfint {s : State} {n : ℕ} (hJ : s.J = n / 2) {B : ℚ} {p : SubState}
    (hp : p ∈ s.energies B) : ∃ k : ℕ, p.mJ = -s.J + k ∧ p.mJ ≤ s.J := by
  rcases mem_energies hp with ⟨⟨k, hk⟩, _, hlt, _⟩
  refine ⟨k, hk, ?_⟩
  have hkn : (k : ℚ) < (n : ℚ) + 1 := by
    rw [hJ] at hlt
    linarith
  have hkn' : k ≤ n := by
    have : k < n + 1 := by exact_mod_cast hkn
    omega
  have : (k : ℚ) ≤ (n : ℚ) := by exact_mod_cast hkn'
  rw [hk, hJ]
  linarith

/-! ### Nonnegativity over the actual `arange` sublevel grids -/

lemma pyInt_one : pyInt (1 : ℚ) = 1 := by
  have := pyInt_intCast 1
  simpa using this

lemma pyInt_neg_one : pyInt (-1 : ℚ) = -1 := by
  have := pyInt_intCast (-1)
  simpa using this

lemma pyInt_zero : pyInt (0 : ℚ) = 0 := by
  have := pyInt_intCast 0
  simpa using this

lemma relVal_nonneg_arange {Ji Jf mi mf : ℚ} {ki kf : ℕ}
    (hki : mi = -Ji + ki) (hmi : mi < Ji + 1)
    (hkf : mf = -Jf + kf) (hmf : mf < Jf + 1)
    (hdJ : Jf - Ji = -1 ∨ Jf - Ji = 0 ∨ Jf - Ji = 1) :
    0 ≤ relVal Ji Jf mi mf := by
  have hkic : (0:ℚ) ≤ (ki : ℚ) := Nat.cast_nonneg ki
  have hkfc : (0:ℚ) ≤ (kf : ℚ) := Nat.cast_nonneg kf
  have hmin : -Ji ≤ mi := by rw [hki]; linarith
  have hmfn : -Jf ≤ mf := by rw [hkf]; linarith
  obtain ⟨e, hJe, he3⟩ : ∃ e : ℤ, Jf - Ji = (e : ℚ) ∧ (e = -1 ∨ e = 0 ∨ e = 1) := by
    rcases hdJ with h | h | h
    · exact ⟨-1, by push_cast; linarith, Or.inl rfl⟩
    · exact ⟨0, by push_cast; linarith, Or.inr (Or.inl rfl)⟩
    · exact ⟨1, by push_cast; linarith, Or.inr (Or.inr rfl)⟩
  have hpJ : pyInt (Jf - Ji) = e := by rw [hJe, pyInt_intCast]
  have hcast : mf - mi = (((kf : ℤ) - (ki : ℤ) - e : ℤ) : ℚ) := by
    rw [hki, hkf]
    push_cast
    linarith [hJe]
  have hpm : pyInt (mf - mi) = (kf : ℤ) - (ki : ℤ) - e := by rw [hcast, pyInt_intCast]
  by_cases hguard : 1 < |(kf : ℤ) - (ki : ℤ) - e|
  · rw [relVal, relative_strength_cases hpJ hpm, if_pos hguard]
    norm_num
  have habs := abs_le.mp (not_lt.mp hguard)
  have hdm3 : (kf : ℤ) - (ki : ℤ) - e = -1 ∨ (kf : ℤ) - (ki : ℤ) - e = 0 ∨
      (kf : ℤ) - (ki : ℤ) - e = 1 := by omega
  have hpm1 : ∀ d : ℤ, (kf : ℤ) - (ki : ℤ) - e = d → pyInt (mf - mi) = d := by
    intro d hd
    rw [hpm, hd]
  have hval : ∀ d : ℤ, (kf : ℤ) - (ki : ℤ) - e = d → mf - mi = (d : ℚ) := by
    intro d hd
    rw [hcast, hd]
  rcases he3 with rfl | rfl | rfl
  · -- Jf = Ji - 1
    have hJf : Jf = Ji - 1 := by
      push_cast at hJe
      linarith
    rcases hdm3 with hdm | hdm | hdm
    · -- dm = -1 : value (Ji + mi) * (Ji + mi - 1) / 4, with Ji + mi = ki
      rw [relVal, relative_strength_cases hpJ (hpm1 _ hdm)]
      norm_num
      have he' : Ji + mi = (ki : ℚ) := by rw [hki]; ring
      rcases ki with _ | n
      · norm_num at he'
        nlinarith [he']
      · push_cast at he'
        nlinarith [he', (Nat.cast_nonneg n : (0:ℚ) ≤ (n:ℚ))]
    · -- dm = 0 : mf = mi, value Ji^2 - mi^2
      rw [relVal, relative_strength_cases hpJ (hpm1 _ hdm)]
      norm_num
      have hmm : mf = mi := by
        have := hval _ hdm
        push_cast at this
        linarith
      have h1 : mi < Ji := by rw [← hmm]; linarith [hmf, hJf]
      nlinarith [mul_nonneg (by linarith : (0:ℚ) ≤ Ji - mi) (by linarith : (0:ℚ) ≤ Ji + mi)]
    · -- dm = 1 : mf = mi + 1, value (Ji - mi) * (Ji - mi - 1) / 4
      rw [relVal, relative_strength_cases hpJ (hpm1 _ hdm)]
      norm_num
      have hmm : mf = mi + 1 := by
        have := hval _ hdm
        push_cast at this
        linarith
      have h1 : mi < Ji - 1 := by
        have := hmf
        rw [hmm] at this
        linarith [hJf]
      linarith [mul_nonneg (by linarith : (0:ℚ) ≤ Ji - mi) (by linarith : (0:ℚ) ≤ Ji - mi - 1)]
  · -- Jf = Ji
    have hJf : Jf = Ji := by
      push_cast at hJe
      linarith
    rcases hdm3 with hdm | hdm | hdm
    · rw [relVal, relative_strength_cases hpJ (hpm1 _ hdm)]
      norm_num
      linarith [mul_nonneg (by linarith : (0:ℚ) ≤ Ji + mi) (by linarith : (0:ℚ) ≤ Ji - mi + 1)]
    · rw [relVal, relative_strength_cases hpJ (hpm1 _ hdm)]
      norm_num
      positivity
    · rw [relVal, relative_strength_cases hpJ (hpm1 _ hdm)]
      norm_num
      have hmm : mf = mi + 1 := by
        have := hval _ hdm
        push_cast at this
        linarith
      have h1 : mi < Ji := by
        have := hmf
        rw [hmm, hJf] at this
        linarith
      linarith [mul_nonneg (by linarith : (0:ℚ) ≤ Ji - mi) (by linarith : (0:ℚ) ≤ Ji + mi + 1)]
  · -- Jf = Ji + 1
    have hJf : Jf = Ji + 1 := by
      push_cast at hJe
      linarith
    rcases hdm3 with hdm | hdm | hdm
    · rw [relVal, relative_strength_cases hpJ (hpm1 _ hdm)]
      norm_num
      linarith [mul_nonneg (by linarith : (0:ℚ) ≤ Ji - mi + 1) (by linarith : (0:ℚ) ≤ Ji - mi + 2)]
    · rw [relVal, relative_strength_cases hpJ (hpm1 _ hdm)]
      norm_num
      nlinarith [mul_nonneg (by linarith : (0:ℚ) ≤ Ji + 1 - mi) (by linarith : (0:ℚ) ≤ Ji + 1 + mi)]
    · rw [relVal, relative_strength_cases hpJ (hpm1 _ hdm)]
      norm_num
      linarith [mul_nonneg (by linarith : (0:ℚ) ≤ Ji + mi + 1) (by linarith : (0:ℚ) ≤ Ji + mi + 2)]

/-! ### Concrete evaluation helpers -/

lemma pyInt_eval_pos {q : ℚ} {z : ℤ} (h0 : 0 ≤ q) (h1 : (z : ℚ) ≤ q) (h2 : q < z + 1) :
    pyInt q = z := by
  unfold pyInt
  rw [if_pos h0]
  exact Int.floor_eq_iff.mpr ⟨h1, h2⟩

lemma pyInt_eval_neg {q : ℚ} {z : ℤ} (h0 : ¬ 0 ≤ q) (h1 : (z : ℚ) - 1 < q) (h2 : q ≤ z) :
    pyInt q = z := by
  unfold pyInt
  rw [if_neg h0]
  exact Int.ceil_eq_iff.mpr ⟨h1, h2⟩

lemma arange_one {a b : ℚ} (h1 : 0 < b - a) (h2 : b - (a + 1) ≤ 0) :
    arange a b = [a] := by
  rw [arange_cons h1, arange_nil h2]

lemma arange_two {a b : ℚ} (h1 : 0 < b - a) (h2 : 0 < b - (a + 1))
    (h3 : b - (a + 1 + 1) ≤ 0) : arange a b = [a, a + 1] := by
  rw [arange_cons h1, arange_cons h2, arange_nil h3]

lemma arange_three {a b : ℚ} (h1 : 0 < b - a) (h2 : 0 < b - (a + 1))
    (h3 : 0 < b - (a + 1 + 1)) (h4 : b - (a + 1 + 1 + 1) ≤ 0) :
    arange a b = [a, a + 1, a + 1 + 1] := by
  rw [arange_cons h1, arange_cons h2, arange_cons h3, arange_nil h4]

lemma specRange_nil {a b : ℚ} (h : b - a < 0) : specRange a b = [] := by
  have h0 : ⌊b - a⌋ < 0 := Int.floor_lt.mpr (by exact_mod_cast h)
  have h1 : ⌊b - a⌋ + 1 ≤ 0 := by omega
  simp [specRange, Int.toNat_of_nonpos h1]

lemma specRange_cons {a b : ℚ} (h : 0 ≤ b - a) : specRange a b = a :: specRange (a + 1) b := by
  have h1 : ⌊b - a⌋ + 1 = (⌊b - (a + 1)⌋ + 1) + 1 := by
    have e : b - (a + 1) = (b - a) - 1 := by ring
    rw [e, Int.floor_sub_one]
    ring
  have hpos : 0 ≤ ⌊b - a⌋ := Int.floor_nonneg.mpr h
  unfold specRange
  rw [h1]
  have h3 : ∀ n : ℤ, 0 ≤ n → (n + 1).toNat = n.toNat + 1 := by
    intro n hn
    omega
  rw [h3 _ (by omega), List.range_succ_eq_map]
  rw [List.map_cons, List.map_map]
  congr 1
  · norm_num
  · apply List.map_congr_left
    intro k _
    simp only [Function.comp_apply, Nat.succ_eq_add_one]
    push_cast
    ring

/-! ### Claim C1: the Höhn closed form -/

/-- C1 counterexample: at `(Ji, Jf, mi, mf) = (1, 1, 1/2, 2)` the difference
`mf - mi = 3/2` exceeds 1 in absolute value, yet the code returns `5/16`,
not 0: the claimed hard cutoff is taken on the truncated integer
`int(mf - mi)`, not on `mf - mi` itself. -/
theorem relative_strength_cutoff_cex :
    1 < |(2 : ℚ) - 1/2| ∧ relative_strength 1 1 (1/2) 2 = some (5/16) ∧ (5/16 : ℚ) ≠ 0 := by
  have hJ : pyInt ((1 : ℚ) - 1) = 0 := by
    rw [show (1:ℚ) - 1 = 0 by norm_num, pyInt_zero]
  have hm : pyInt ((2 : ℚ) - 1/2) = 1 := by
    rw [show (2:ℚ) - 1/2 = 3/2 by norm_num]
    exact pyInt_eval_pos (by norm_num) (by norm_num) (by norm_num)
  refine ⟨?_, ?_, by norm_num⟩
  · rw [show (2:ℚ) - 1/2 = 3/2 by norm_num, abs_of_pos (by norm_num : (0:ℚ) < 3/2)]
    norm_num
  · rw [relative_strength_cases hJ hm]
    norm_num

/-- C1 (corrected): `relative_strength` agrees everywhere with the Höhn (1925)
closed-form reference, provided the case boundaries are read on the truncated
integers `dJ = int(Jf - Ji)` and `dm = int(mf - mi)` (truncation toward zero),
exactly as the code computes them; the formulas and their order are otherwise
exactly as claimed. -/
theorem relative_strength_eq_hoehn :
    ∀ Ji Jf mi mf : ℚ, relative_strength Ji Jf mi mf = hoehnReference Ji Jf mi mf :=
  fun _ _ _ _ => rfl

/-! ### Claim C5: the Landé factor -/

lemma halfState_valid : (⟨0, 1/2, 0, 1/2⟩ : State).Valid := by
  refine ⟨by norm_num, ?_⟩
  show (1/2 : ℚ) ∈ arange |((0:ℤ):ℚ) - 1/2| (((0:ℤ):ℚ) + 1/2 + 1)
  have e1 : |((0:ℤ):ℚ) - 1/2| = 1/2 := by norm_num
  have e2 : ((0:ℤ):ℚ) + 1/2 + 1 = 1/2 + 1 := by norm_num
  rw [e1, e2, arange_one (by norm_num) (by norm_num)]
  norm_num

/-- C5 (confirmed): for every validly constructed level the Landé factor is
given by the claimed case split, taken in order (S=0 → 1; L=0 → 2;
L=S → 3/2; J=0 → 0; otherwise the closed formula); and the level
`State(0, 1/2, 0, 1/2)` has `g = 2` exactly. -/
theorem landeG_cases :
    (∀ s : State, s.Valid → s.g = landeGSpec s) ∧ (⟨0, 1/2, 0, 1/2⟩ : State).g = 2 := by
  constructor
  · exact fun s _ => rfl
  · show State.g _ = 2
    unfold State.g
    norm_num

/-- C5 witness: the theorem applied to the valid level `State(0, 1/2, 0, 1/2)`. -/
theorem landeG_cases_witness :
    (⟨0, 1/2, 0, 1/2⟩ : State).Valid ∧ (⟨0, 1/2, 0, 1/2⟩ : State).g = landeGSpec ⟨0, 1/2, 0, 1/2⟩ :=
  ⟨halfState_valid, landeG_cases.1 _ halfState_valid⟩

/-! ### Claim C9: the permissive oscillator-strength default -/

/-- C9 (confirmed): looking up a `(lowerJ, upperJ)` pair that has no stored
oscillator-strength entry yields the default `-10.0` instead of failing, so
the enumeration (a total function of the same lookup) proceeds with
`gf0 = 10 ^ (-10)` for such pairs. -/
theorem log_gf_default :
    ∀ (m : Multiplet) (key : ℚ × ℚ), m.log_gf.lookup key = none →
      m.log_gf_get key = -10 := by
  intro m key h
  rw [Multiplet.log_gf_get, h]
  rfl

/-- C9 witness: a multiplet with an empty oscillator-strength table. -/
theorem log_gf_default_witness :
    (⟨[], [], []⟩ : Multiplet).log_gf.lookup (0, 0) = none ∧
      (⟨[], [], []⟩ : Multiplet).log_gf_get (0, 0) = -10 :=
  ⟨rfl, log_gf_default ⟨[], [], []⟩ (0, 0) rfl⟩

/-! ### Claim C4: construction-time validation -/

/-- C4 counterexample: `State(0, 7/4, 1, 1/4)` constructs successfully, yet
`7/4` is not one of the values `|L - S|, |L - S| + 1, …, L + S` (here just
`{3/4}`): for non-half-integral `S`, `np.arange(|L - S|, L + S + 1)` also
contains values above `L + S`, so the claimed failure condition is wrong. -/
theorem mk_state_range_cex :
    (State.mk? 0 (7/4) 1 (1/4)).isSome = true ∧
      (7/4 : ℚ) ∉ specRange |((1:ℤ):ℚ) - 1/4| (((1:ℤ):ℚ) + 1/4) := by
  constructor
  · unfold State.mk?
    rw [if_neg (by norm_num)]
    have e1 : |((1:ℤ):ℚ) - 1/4| = 3/4 := by norm_num
    have e2 : ((1:ℤ):ℚ) + 1/4 + 1 = 9/4 := by norm_num
    rw [e1, e2, arange_two (by norm_num) (by norm_num) (by norm_num)]
    rw [if_pos (by norm_num)]
    rfl
  · have e1 : |((1:ℤ):ℚ) - 1/4| = 3/4 := by norm_num
    have e2 : ((1:ℤ):ℚ) + 1/4 = 5/4 := by norm_num
    rw [e1, e2, specRange_cons (by norm_num), specRange_nil (by norm_num)]
    norm_num

/-- C4 (corrected): construction raises exactly when `J`, `L` or `S` is
negative or `J` is not one of the `np.arange(|L - S|, L + S + 1)` values
`|L - S| + k` for natural `k < ⌈(L + S + 1) - |L - S|⌉` (which coincides with
the claimed range `|L - S|, …, L + S` whenever `2 min(L, S)` is an integer);
on failure no object is produced; in particular `State(k0, 2, 0, 0)` always
fails. -/
theorem mk_state_none_iff :
    ∀ (k0 J : ℚ) (L : ℤ) (S : ℚ),
      (State.mk? k0 J L S = none ↔
        ((J < 0 ∨ (L : ℚ) < 0 ∨ S < 0) ∨
          ¬ ∃ k : ℕ, k < (⌈((L : ℚ) + S + 1) - |(L : ℚ) - S|⌉).toNat ∧
            J = |(L : ℚ) - S| + k)) ∧
      State.mk? k0 2 0 0 = none := by
  intro k0 J L S
  constructor
  · unfold State.mk?
    by_cases h1 : J < 0 ∨ (L : ℚ) < 0 ∨ S < 0
    · rw [if_pos h1]
      simp only [h1, true_or, iff_true]
    · rw [if_neg h1]
      by_cases h2 : J ∈ arange |(L : ℚ) - S| ((L : ℚ) + S + 1)
      · rw [if_pos h2]
        simp only [h1, false_or, reduceCtorEq, false_iff, not_not]
        exact mem_arange.mp h2
      · rw [if_neg h2]
        simp only [h1, false_or, true_iff]
        exact fun hx => h2 (mem_arange.mpr hx)
  · unfold State.mk?
    rw [if_neg (by norm_num)]
    have e1 : |((0:ℤ):ℚ) - 0| = 0 := by norm_num
    have e2 : ((0:ℤ):ℚ) + 0 + 1 = 1 := by norm_num
    rw [e1, e2, arange_one (by norm_num) (by norm_num)]
    rw [if_neg (by norm_num)]

/-! ### Claim C10: purity of the public operations -/

lemma lookup_append_getD (d : List ((ℚ × ℚ) × ℚ)) (key k : ℚ × ℚ)
    (hnone : d.lookup key = none) :
    ((d ++ [(key, -10)]).lookup k).getD (-10) = (d.lookup k).getD (-10) := by
  induction d with
  | nil =>
    rw [List.nil_append, List.lookup_nil, List.lookup_cons]
    cases hbe : (k == key) <;> simp [hbe]
  | cons p ps ih =>
    rcases p with ⟨pk, pv⟩
    rw [List.lookup_cons] at hnone
    rw [List.cons_append, List.lookup_cons, List.lookup_cons]
    cases hkp : (key == pk)
    · rw [hkp] at hnone
      cases hk : (k == pk)
      · simpa using ih hnone
      · simp
    · rw [hkp] at hnone
      simp at hnone

lemma ddAccess_lookup_getD (d : List ((ℚ × ℚ) × ℚ)) (key k : ℚ × ℚ) :
    (((ddAccess d key).lookup k).getD (-10)) = ((d.lookup k).getD (-10)) := by
  unfold ddAccess
  by_cases h : (d.lookup key).isSome
  · rw [if_pos h]
  · rw [if_neg h]
    exact lookup_append_getD d key k (Option.not_isSome_iff_eq_none.mp h)

lemma foldl_dd_lookup_getD (l : List (State × State)) (d : List ((ℚ × ℚ) × ℚ)) (k : ℚ × ℚ) :
    (((l.foldl (fun d p =>
        if 1 < |p.1.J - p.2.J| then d
        else if p.1.J = 0 ∧ p.2.J = 0 then d
        else ddAccess d (p.2.J, p.1.J)) d).lookup k).getD (-10)) =
      ((d.lookup k).getD (-10)) := by
  induction l generalizing d with
  | nil => rfl
  | cons p ps ih =>
    rw [List.foldl_cons, ih]
    by_cases h1 : 1 < |p.1.J - p.2.J|
    · rw [if_pos h1]
    · rw [if_neg h1]
      by_cases h2 : p.1.J = 0 ∧ p.2.J = 0
      · rw [if_pos h2]
      · rw [if_neg h2, ddAccess_lookup_getD]

lemma log_gf_after_lookup_getD (m : Multiplet) (k : ℚ × ℚ) :
    ((m.log_gf_after.lookup k).getD (-10)) = ((m.log_gf.lookup k).getD (-10)) := by
  unfold Multiplet.log_gf_after
  exact foldl_dd_lookup_getD _ _ _

/-- C10 counterexample: enumerating the transitions of a multiplet whose
oscillator-strength `defaultdict` starts empty inserts the default entry
`((1/2, 1/2), -10.0)` into the dictionary: the observable mapping object is
mutated by the read, so the Multiplet is not literally immutable. -/
theorem log_gf_mutation_cex :
    (⟨[⟨0, 1/2, 0, 1/2⟩], [⟨100, 1/2, 1, 1/2⟩], []⟩ : Multiplet).log_gf_after
        = [((1/2, 1/2), -10)] ∧
      (⟨[⟨0, 1/2, 0, 1/2⟩], [⟨100, 1/2, 1, 1/2⟩], []⟩ : Multiplet).log_gf_after
        ≠ (⟨[⟨0, 1/2, 0, 1/2⟩], [⟨100, 1/2, 1, 1/2⟩], []⟩ : Multiplet).log_gf := by
  have h : (⟨[⟨0, 1/2, 0, 1/2⟩], [⟨100, 1/2, 1, 1/2⟩], []⟩ : Multiplet).log_gf_after
      = [((1/2, 1/2), -10)] := by
    unfold Multiplet.log_gf_after Multiplet.states_outer_product listProd
    simp only [List.map_cons, List.map_nil, List.flatten, List.append_nil, List.foldl_cons,
      List.foldl_nil]
    rw [if_neg (by norm_num), if_neg (by norm_num)]
    rfl
  exact ⟨h, by rw [h]; simp⟩

/-- C10 (corrected): every public operation is a pure function of the
construction-time data and its arguments, and enumeration leaves the
oscillator-strength mapping unchanged as a key-to-value function (with its
default `-10.0`): a second enumeration, run against the dictionary state left
behind by a first one, produces exactly the same transitions.  What the
claim misses is only that the `defaultdict` object itself gains explicit
default entries for the level pairs that were read (see the counterexample). -/
theorem transitions_pure_amended :
    ∀ (m : Multiplet) (B T : ℚ) (key : ℚ × ℚ),
      (m.log_gf_after.lookup key).getD (-10) = (m.log_gf.lookup key).getD (-10) ∧
      Multiplet.transitions ⟨m.Lower_states, m.Upper_states, m.log_gf_after⟩ B T
        = m.transitions B T := by
  intro m B T key
  refine ⟨log_gf_after_lookup_getD m key, ?_⟩
  unfold Multiplet.transitions
  have hsop : (⟨m.Lower_states, m.Upper_states, m.log_gf_after⟩ : Multiplet).states_outer_product
      = m.states_outer_product := rfl
  rw [hsop]
  congr 1
  apply List.map_congr_left
  intro p _
  have hg : (⟨m.Lower_states, m.Upper_states, m.log_gf_after⟩ : Multiplet).log_gf_get
      (p.2.J, p.1.J) = m.log_gf_get (p.2.J, p.1.J) := by
    unfold Multiplet.log_gf_get
    exact log_gf_after_lookup_getD m (p.2.J, p.1.J)
  dsimp only
  rw [hg]

/-! ### Claim C8: non-negativity of the relative strengths -/

/-- C8 (confirmed): for `mi` in the sublevel grid `{-Ji, …, Ji}`, `mf` in
`{-Jf, …, Jf}` and `|Jf - Ji| ≤ 1`, the relative strength is defined (no
`ValueError`) and non-negative. -/
theorem relative_strength_nonneg :
    ∀ Ji Jf mi mf : ℚ,
      (∃ ki : ℕ, mi = -Ji + ki) → mi ≤ Ji →
      (∃ kf : ℕ, mf = -Jf + kf) → mf ≤ Jf →
      |Jf - Ji| ≤ 1 →
      ∃ v, relative_strength Ji Jf mi mf = some v ∧ 0 ≤ v := by
  rintro Ji Jf mi mf ⟨ki, hki⟩ hmi ⟨kf, hkf⟩ hmf hdJ
  exact relative_strength_nonneg_core hki hmi hmf hdJ

/-- C8 witness: the theorem applied at `Ji = Jf = 1/2`, `mi = mf = 1/2`. -/
theorem relative_strength_nonneg_witness :
    (∃ ki : ℕ, (1/2 : ℚ) = -(1/2 : ℚ) + ki) ∧ ((1/2 : ℚ) ≤ 1/2) ∧
      |(1/2 : ℚ) - 1/2| ≤ 1 ∧
      ∃ v, relative_strength (1/2) (1/2) (1/2) (1/2) = some v ∧ 0 ≤ v := by
  have h1 : ∃ ki : ℕ, (1/2 : ℚ) = -(1/2 : ℚ) + ki := ⟨1, by norm_num⟩
  have h5 : |(1/2 : ℚ) - 1/2| ≤ 1 := by norm_num
  exact ⟨h1, le_refl _, h5,
    relative_strength_nonneg (1/2) (1/2) (1/2) (1/2) h1 (le_refl _) h1 (le_refl _) h5⟩

/-! ### Claim C2: positivity of the normalisation denominator -/

lemma mem_arange_of_k {a b : ℚ} (k : ℕ) (h : (k : ℚ) < b - a) : a + k ∈ arange a b := by
  apply mem_arange.mpr
  refine ⟨k, ?_, rfl⟩
  have h1 : ((k : ℤ) : ℚ) < ((⌈b - a⌉ : ℤ) : ℚ) :=
    lt_of_lt_of_le (by exact_mod_cast h) (Int.le_ceil _)
  have h2 : (k : ℤ) < ⌈b - a⌉ := by exact_mod_cast h1
  omega

lemma neg_J_mem_mJs {s : State} (h : 0 ≤ s.J) : -s.J ∈ s.mJs := by
  rw [State.mJs]
  have := mem_arange_of_k (a := -s.J) (b := s.J + 1) 0 (by push_cast; linarith)
  simpa using this

lemma neg_J_succ_mem_mJs {s : State} (h : 1/2 ≤ s.J) : -s.J + 1 ∈ s.mJs := by
  rw [State.mJs]
  have := mem_arange_of_k (a := -s.J) (b := s.J + 1) 1 (by push_cast; linarith)
  simpa using this

/-- C2 (corrected): for states with non-negative `J`, a level pair that
passes the selection rules (`|ΔJ| ≤ 1`, not both `J = 0`) and whose `ΔJ` is
moreover an integer (so `ΔJ ∈ {-1, 0, 1}` exactly) has a strictly positive
`total_strength`, so the normalisation in `transitions` does not divide by
zero for such pairs. -/
theorem total_strength_pos :
    ∀ (lS uS : State) (B : ℚ),
      0 ≤ lS.J → 0 ≤ uS.J → |uS.J - lS.J| ≤ 1 → ¬(uS.J = 0 ∧ lS.J = 0) →
      (uS.J - lS.J = -1 ∨ uS.J - lS.J = 0 ∨ uS.J - lS.J = 1) →
      0 < total_strength lS uS B := by
  intro lS uS B hJl hJu habs hne hdJ
  unfold total_strength
  have hnn : ∀ x ∈ (listProd (lS.energies B) (uS.energies B)).map
      (fun q => relVal lS.J uS.J q.1.mJ q.2.mJ), 0 ≤ x := by
    intro x hx
    rcases List.mem_map.mp hx with ⟨q, hq, rfl⟩
    rcases q with ⟨ls, us⟩
    rcases mem_listProd.mp hq with ⟨hls, hus⟩
    rcases mem_energies hls with ⟨⟨ki, hki⟩, _, hmi, _⟩
    rcases mem_energies hus with ⟨⟨kf, hkf⟩, _, hmf, _⟩
    exact relVal_nonneg_arange hki hmi hkf hmf hdJ
  rcases hdJ with he | he | he
  · -- ΔJ = -1 : witness sublevel pair (mi, mf) = (-lS.J + 1, -uS.J)
    have hlJ1 : 1 ≤ lS.J := by linarith
    have hmil : -lS.J + 1 ∈ lS.mJs := neg_J_succ_mem_mJs (by linarith)
    have hmfu : -uS.J ∈ uS.mJs := neg_J_mem_mJs hJu
    have h1 := energies_mem_of_mem_mJs (B := B) hmil
    have h2 := energies_mem_of_mem_mJs (B := B) hmfu
    have hpJ : pyInt (uS.J - lS.J) = -1 := by rw [he]; exact pyInt_neg_one
    have hpm : pyInt (-uS.J - (-lS.J + 1)) = 0 := by
      rw [show -uS.J - (-lS.J + 1) = -(uS.J - lS.J) - 1 by ring, he]
      norm_num
      exact pyInt_zero
    have hval : 0 < relVal lS.J uS.J (-lS.J + 1) (-uS.J) := by
      rw [relVal, relative_strength_cases hpJ hpm]
      norm_num
      nlinarith [hlJ1, he]
    exact sum_pos_of_mem hnn
      (List.mem_map.mpr ⟨(⟨-lS.J + 1, lS.k0 + 0.046686 * B * ((-lS.J + 1) * lS.g)⟩,
        ⟨-uS.J, uS.k0 + 0.046686 * B * ((-uS.J) * uS.g)⟩),
        mem_listProd.mpr ⟨h1, h2⟩, rfl⟩) hval
  · -- ΔJ = 0 : witness sublevel pair (mi, mf) = (-lS.J, -lS.J)
    have hJeq : uS.J = lS.J := by linarith
    have hJne : lS.J ≠ 0 := fun h => hne ⟨by rw [hJeq, h], h⟩
    have hmil : -lS.J ∈ lS.mJs := neg_J_mem_mJs hJl
    have hmfu : -lS.J ∈ uS.mJs := by
      rw [show -lS.J = -uS.J by rw [hJeq]]
      exact neg_J_mem_mJs hJu
    have h1 := energies_mem_of_mem_mJs (B := B) hmil
    have h2 := energies_mem_of_mem_mJs (B := B) hmfu
    have hpJ : pyInt (uS.J - lS.J) = 0 := by rw [he]; exact pyInt_zero
    have hpm : pyInt (-lS.J - -lS.J) = 0 := by
      rw [show -lS.J - -lS.J = 0 by ring]
      exact pyInt_zero
    have hval : 0 < relVal lS.J uS.J (-lS.J) (-lS.J) := by
      rw [relVal, relative_strength_cases hpJ hpm]
      norm_num
      have : -lS.J ≠ 0 := neg_ne_zero.mpr hJne
      positivity
    exact sum_pos_of_mem hnn
      (List.mem_map.mpr ⟨(⟨-lS.J, lS.k0 + 0.046686 * B * ((-lS.J) * lS.g)⟩,
        ⟨-lS.J, uS.k0 + 0.046686 * B * ((-lS.J) * uS.g)⟩),
        mem_listProd.mpr ⟨h1, h2⟩, rfl⟩) hval
  · -- ΔJ = 1 : witness sublevel pair (mi, mf) = (-lS.J, -lS.J)
    have hmil : -lS.J ∈ lS.mJs := neg_J_mem_mJs hJl
    have hmfu : -lS.J ∈ uS.mJs := by
      rw [show -lS.J = -uS.J + 1 by linarith]
      exact neg_J_succ_mem_mJs (by linarith)
    have h1 := energies_mem_of_mem_mJs (B := B) hmil
    have h2 := energies_mem_of_mem_mJs (B := B) hmfu
    have hpJ : pyInt (uS.J - lS.J) = 1 := by rw [he]; exact pyInt_one
    have hpm : pyInt (-lS.J - -lS.J) = 0 := by
      rw [show -lS.J - -lS.J = 0 by ring]
      exact pyInt_zero
    have hval : 0 < relVal lS.J uS.J (-lS.J) (-lS.J) := by
      rw [relVal, relative_strength_cases hpJ hpm]
      norm_num
      nlinarith [hJl]
    exact sum_pos_of_mem hnn
      (List.mem_map.mpr ⟨(⟨-lS.J, lS.k0 + 0.046686 * B * ((-lS.J) * lS.g)⟩,
        ⟨-lS.J, uS.k0 + 0.046686 * B * ((-lS.J) * uS.g)⟩),
        mem_listProd.mpr ⟨h1, h2⟩, rfl⟩) hval

/-- C2 witness: the theorem applied to the Na D pair with `lowerJ = upperJ = 1/2`
at `B = 0`. -/
theorem total_strength_pos_witness :
    (0:ℚ) ≤ (⟨0, 1/2, 0, 1/2⟩ : State).J ∧
      |(⟨16956, 1/2, 1, 1/2⟩ : State).J - (⟨0, 1/2, 0, 1/2⟩ : State).J| ≤ 1 ∧
      ¬((⟨16956, 1/2, 1, 1/2⟩ : State).J = 0 ∧ (⟨0, 1/2, 0, 1/2⟩ : State).J = 0) ∧
      0 < total_strength ⟨0, 1/2, 0, 1/2⟩ ⟨16956, 1/2, 1, 1/2⟩ 0 := by
  refine ⟨by norm_num, ?_, by norm_num, ?_⟩
  · show |(1/2 : ℚ) - 1/2| ≤ 1
    norm_num
  · exact total_strength_pos ⟨0, 1/2, 0, 1/2⟩ ⟨16956, 1/2, 1, 1/2⟩ 0
      (by norm_num) (by norm_num)
      (by show |(1/2 : ℚ) - 1/2| ≤ 1; norm_num)
      (by norm_num)
      (Or.inr (Or.inl (by norm_num)))

/-- C2 counterexample: the level pair `lowerJ = 0`, `upperJ = 1/2` passes both
selection-rule filters (`|ΔJ| = 1/2 ≤ 1`, not both zero) yet its
`total_strength` is exactly 0, so the claimed positivity fails (and the real
code would divide by zero there). -/
theorem total_strength_zero_cex :
    |(⟨100, 1/2, 0, 1/2⟩ : State).J - (⟨0, 0, 0, 0⟩ : State).J| ≤ 1 ∧
      ¬((⟨100, 1/2, 0, 1/2⟩ : State).J = 0 ∧ (⟨0, 0, 0, 0⟩ : State).J = 0) ∧
      total_strength ⟨0, 0, 0, 0⟩ ⟨100, 1/2, 0, 1/2⟩ 0 = 0 := by
  refine ⟨?_, by norm_num, ?_⟩
  · show |(1/2 : ℚ) - 0| ≤ 1
    rw [show (1/2 : ℚ) - 0 = 1/2 by norm_num, abs_of_pos (by norm_num : (0:ℚ) < 1/2)]
    norm_num
  · have hl : (⟨0, 0, 0, 0⟩ : State).energies 0 = [⟨0, 0⟩] := by
      unfold State.energies State.mJs State.energy State.splitting
      dsimp only
      rw [show -(0:ℚ) = 0 by norm_num, arange_one (by norm_num) (by norm_num)]
      simp only [List.map_cons, List.map_nil]
      norm_num
    have hu : (⟨100, 1/2, 0, 1/2⟩ : State).energies 0
        = [⟨-(1/2), 100⟩, ⟨1/2, 100⟩] := by
      unfold State.energies State.mJs State.energy State.splitting
      dsimp only
      rw [arange_two (by norm_num) (by norm_num) (by norm_num)]
      simp only [List.map_cons, List.map_nil]
      norm_num
    have e1 : relVal (0 : ℚ) (1/2) 0 (-(1/2)) = 0 := by
      have hpJ : pyInt ((1/2 : ℚ) - 0) = 0 := by
        rw [show (1/2 : ℚ) - 0 = 1/2 by norm_num]
        exact pyInt_eval_pos (by norm_num) (by norm_num) (by norm_num)
      have hpm : pyInt (-(1/2 : ℚ) - 0) = 0 := by
        rw [show -(1/2 : ℚ) - 0 = -(1/2) by norm_num]
        exact pyInt_eval_neg (by norm_num) (by norm_num) (by norm_num)
      rw [relVal, relative_strength_cases hpJ hpm]
      norm_num
    have e2 : relVal (0 : ℚ) (1/2) 0 (1/2) = 0 := by
      have hpJ : pyInt ((1/2 : ℚ) - 0) = 0 := by
        rw [show (1/2 : ℚ) - 0 = 1/2 by norm_num]
        exact pyInt_eval_pos (by norm_num) (by norm_num) (by norm_num)
      have hpm : pyInt ((1/2 : ℚ) - 0) = 0 := by
        rw [show (1/2 : ℚ) - 0 = 1/2 by norm_num]
        exact pyInt_eval_pos (by norm_num) (by norm_num) (by norm_num)
      rw [relVal, relative_strength_cases hpJ hpm]
      norm_num
    unfold total_strength
    rw [hl, hu]
    unfold listProd
    simp only [List.map_cons, List.map_nil, List.flatten, List.append_nil, List.sum_cons,
      List.sum_nil]
    show relVal (0 : ℚ) (1/2) 0 (-(1/2)) + (relVal (0 : ℚ) (1/2) 0 (1/2) + 0) = 0
    rw [e1, e2]
    norm_num

/-! ### Claim C6: the sublevel grid -/

lemma energies_map_mJ (s : State) (B : ℚ) : (s.energies B).map SubState.mJ = s.mJs := by
  unfold State.energies
  rw [List.map_map]
  have h : (SubState.mJ ∘ fun mJ => (⟨mJ, s.energy mJ B⟩ : SubState)) = id := by
    funext mJ
    rfl
  rw [h, List.map_id]

lemma mJs_eq_specRange {s : State} {n : ℕ} (hJ : s.J = n / 2) :
    s.mJs = specRange (-s.J) s.J := by
  unfold State.mJs arange specRange
  congr 2
  have e1 : s.J + 1 - -s.J = (n : ℚ) + 1 := by rw [hJ]; ring
  have e2 : s.J - -s.J = (n : ℚ) := by rw [hJ]; ring
  rw [e1, e2]
  have c1 : (⌈(n : ℚ) + 1⌉) = (n : ℤ) + 1 := by
    rw [show ((n : ℚ) + 1) = (((n : ℤ) + 1 : ℤ) : ℚ) by push_cast; ring, Int.ceil_intCast]
  have c2 : (⌊(n : ℚ)⌋) = (n : ℤ) := by
    rw [show ((n : ℚ)) = (((n : ℤ) : ℤ) : ℚ) by push_cast; ring, Int.floor_intCast]
  rw [c1, c2]

lemma mJs_pairwise (s : State) : s.mJs.Pairwise (· < ·) := by
  unfold State.mJs arange
  refine List.Pairwise.map _ ?_ (List.pairwise_lt_range _)
  intro a b hab
  have : (a : ℚ) < (b : ℚ) := by exact_mod_cast hab
  linarith

lemma mJs_length_halfint {s : State} {n : ℕ} (hJ : s.J = n / 2) :
    s.mJs.length = n + 1 := by
  unfold State.mJs arange
  rw [List.length_map, List.length_range]
  have e1 : s.J + 1 - -s.J = (n : ℚ) + 1 := by rw [hJ]; ring
  rw [e1]
  have c1 : (⌈(n : ℚ) + 1⌉) = (n : ℤ) + 1 := by
    rw [show ((n : ℚ) + 1) = (((n : ℤ) + 1 : ℤ) : ℚ) by push_cast; ring, Int.ceil_intCast]
  rw [c1]
  omega

lemma mJs_neg_mem_halfint {s : State} {n : ℕ} (hJ : s.J = n / 2) {q : ℚ}
    (hq : q ∈ s.mJs) : -q ∈ s.mJs := by
  rcases mem_arange.mp hq with ⟨k, hk, rfl⟩
  have hlen : (⌈s.J + 1 - -s.J⌉).toNat = n + 1 := by
    have e1 : s.J + 1 - -s.J = (n : ℚ) + 1 := by rw [hJ]; ring
    rw [e1, show ((n : ℚ) + 1) = (((n : ℤ) + 1 : ℤ) : ℚ) by push_cast; ring, Int.ceil_intCast]
    omega
  rw [hlen] at hk
  have hkn : k ≤ n := by omega
  rw [State.mJs]
  have hmem := mem_arange_of_k (a := -s.J) (b := s.J + 1) (n - k) ?_
  · have : -s.J + ((n - k : ℕ) : ℚ) = -(-s.J + (k : ℚ)) := by
      have : ((n - k : ℕ) : ℚ) = (n : ℚ) - (k : ℚ) := by
        push_cast [Nat.cast_sub hkn]
        ring
      rw [this, hJ]
      ring
    rwa [this] at hmem
  · have : ((n - k : ℕ) : ℚ) = (n : ℚ) - (k : ℚ) := by
      push_cast [Nat.cast_sub hkn]
      ring
    rw [this, hJ]
    have : (0:ℚ) ≤ (k : ℚ) := Nat.cast_nonneg k
    linarith

/-- C6 counterexample: `State(0, 1/4, 0, 1/4)` is accepted by the
constructor, but its sublevel list `np.arange(-1/4, 5/4) = [-1/4, 3/4]` has
2 entries while `2J + 1 = 3/2`, and it is not symmetric about 0. -/
theorem energies_count_cex :
    (⟨0, 1/4, 0, 1/4⟩ : State).Valid ∧
      ((⟨0, 1/4, 0, 1/4⟩ : State).energies 0).map SubState.mJ = [-(1/4), 3/4] ∧
      (((⟨0, 1/4, 0, 1/4⟩ : State).energies 0).length : ℚ)
        ≠ 2 * (⟨0, 1/4, 0, 1/4⟩ : State).J + 1 ∧
      (-(3/4) : ℚ) ∉ ((⟨0, 1/4, 0, 1/4⟩ : State).energies 0).map SubState.mJ := by
  have hmap : ((⟨0, 1/4, 0, 1/4⟩ : State).energies 0).map SubState.mJ = [-(1/4), 3/4] := by
    rw [energies_map_mJ]
    show arange (-(1/4 : ℚ)) (1/4 + 1) = [-(1/4), 3/4]
    rw [arange_two (by norm_num) (by norm_num) (by norm_num)]
    norm_num
  have hlen : ((⟨0, 1/4, 0, 1/4⟩ : State).energies 0).length = 2 := by
    have := congrArg List.length hmap
    rwa [List.length_map] at this
  refine ⟨?_, hmap, ?_, ?_⟩
  · refine ⟨by norm_num, ?_⟩
    show (1/4 : ℚ) ∈ arange |((0:ℤ):ℚ) - 1/4| (((0:ℤ):ℚ) + 1/4 + 1)
    have e1 : |((0:ℤ):ℚ) - 1/4| = 1/4 := by norm_num
    have e2 : ((0:ℤ):ℚ) + 1/4 + 1 = 1/4 + 1 := by norm_num
    rw [e1, e2, arange_one (by norm_num) (by norm_num)]
    norm_num
  · rw [hlen]
    show (2 : ℚ) ≠ 2 * (1/4) + 1
    norm_num
  · rw [hmap]
    norm_num

/-- C6 (corrected): for a validly constructed level whose `J` is a
half-integer (`J = n/2`, the case the data model intends), `energies(B)`
returns exactly `2J + 1` pairs, whose `mJ` values are the increasing,
symmetric grid `-J, -J+1, …, +J`, each with energy
`k0 + 0.046686 · B · mJ · g`; at `B = 0` every energy equals `k0`.  For
non-half-integral `J` (accepted by the constructor) the count and the
symmetry fail, see the counterexample. -/
theorem energies_spec_halfint :
    ∀ (s : State) (n : ℕ) (B : ℚ), s.Valid → s.J = n / 2 →
      ((s.energies B).length : ℚ) = 2 * s.J + 1 ∧
      (s.energies B).map SubState.mJ = specRange (-s.J) s.J ∧
      ((s.energies B).map SubState.mJ).Pairwise (· < ·) ∧
      (∀ q ∈ (s.energies B).map SubState.mJ, -q ∈ (s.energies B).map SubState.mJ) ∧
      (∀ p ∈ s.energies B, p.k = s.k0 + 0.046686 * B * (p.mJ * s.g)) ∧
      (B = 0 → ∀ p ∈ s.energies B, p.k = s.k0) := by
  intro s n B _ hJ
  have hlenE : (s.energies B).length = s.mJs.length := by
    unfold State.energies
    rw [List.length_map]
  refine ⟨?_, ?_, ?_, ?_, ?_, ?_⟩
  · rw [hlenE, mJs_length_halfint hJ, hJ]
    push_cast
    ring
  · rw [energies_map_mJ]
    exact mJs_eq_specRange hJ
  · rw [energies_map_mJ]
    exact mJs_pairwise s
  · rw [energies_map_mJ]
    exact fun q hq => mJs_neg_mem_halfint hJ hq
  · intro p hp
    exact (mem_energies hp).2.2.2
  · intro hB p hp
    have := (mem_energies hp).2.2.2
    rw [this, hB]
    ring

/-- C6 witness: the theorem applied to `State(0, 1/2, 0, 1/2)` with `n = 1`
at `B = 5`. -/
theorem energies_spec_halfint_witness :
    (⟨0, 1/2, 0, 1/2⟩ : State).Valid ∧
      (((⟨0, 1/2, 0, 1/2⟩ : State).energies 5).length : ℚ)
        = 2 * (⟨0, 1/2, 0, 1/2⟩ : State).J + 1 ∧
      ((⟨0, 1/2, 0, 1/2⟩ : State).energies 5).map SubState.mJ
        = specRange (-(⟨0, 1/2, 0, 1/2⟩ : State).J) (⟨0, 1/2, 0, 1/2⟩ : State).J := by
  have h := energies_spec_halfint ⟨0, 1/2, 0, 1/2⟩ 1 5 halfState_valid (by norm_num)
  exact ⟨halfState_valid, h.1, h.2.1⟩

/-! ### Claim C3: which records are emitted -/

/-- C3 (corrected): the enumeration yields records exactly for the level
pairs with `|ΔJ| ≤ 1` and not both `J = 0`, and, within such a pair, exactly
for the sublevel pairs with `|ΔmJ| < 2` — equivalently `int(ΔmJ) ∈ {-1,0,1}`,
the filter the code actually applies; every other pair is skipped with no
record at all. -/
theorem transitions_eq_spec :
    ∀ (m : Multiplet) (B T : ℚ), m.transitions B T = m.transitionsSpec B T := by
  intro m B T
  unfold Multiplet.transitions Multiplet.transitionsSpec
  congr 1
  apply List.map_congr_left
  intro p _
  dsimp only
  by_cases h1 : 1 < |p.1.J - p.2.J|
  · rw [if_pos h1, if_neg]
    intro hc
    exact absurd hc.1 (not_le.mpr h1)
  · rw [if_neg h1]
    by_cases h2 : p.1.J = 0 ∧ p.2.J = 0
    · rw [if_pos h2, if_neg]
      exact fun hc => hc.2 h2
    · rw [if_neg h2, if_pos ⟨not_lt.mp h1, h2⟩]
      congr 1
      apply List.map_congr_left
      intro q _
      by_cases h3 : 1 < |pyInt (q.2.mJ - q.1.mJ)|
      · rw [if_pos h3, if_neg]
        intro hc
        exact absurd (pyInt_abs_le_one_iff.mpr hc) (not_le.mpr h3)
      · rw [if_neg h3, if_pos (pyInt_abs_le_one_iff.mp (not_lt.mp h3))]

/-- C3 counterexample: on the mixed-parity multiplet `mC3` (lower `J = 1/2`,
upper `J = 1`), the code emits 6 sublevel records, including the two pairs
with `ΔmJ = ±3/2` (truncated by `int()` to `±1`), while the claimed
`|ΔmJ| ≤ 1` rule admits only 4: the claimed enumeration differs from the
code's. -/
theorem transitions_stated_cex :
    (mC3.transitions 0 6000).length = 6 ∧
      (mC3.transitionsStated 0 6000).length = 4 ∧
      mC3.transitions 0 6000 ≠ mC3.transitionsStated 0 6000 := by
  have hl : (⟨0, 1/2, 0, 1/2⟩ : State).energies 0 = [⟨-(1/2), 0⟩, ⟨1/2, 0⟩] := by
    unfold State.energies State.mJs State.energy State.splitting
    dsimp only
    rw [arange_two (by norm_num) (by norm_num) (by norm_num)]
    simp only [List.map_cons, List.map_nil]
    norm_num
  have hu : (⟨100, 1, 1, 0⟩ : State).energies 0 = [⟨-1, 100⟩, ⟨0, 100⟩, ⟨1, 100⟩] := by
    unfold State.energies State.mJs State.energy State.splitting
    dsimp only
    rw [arange_three (by norm_num) (by norm_num) (by norm_num) (by norm_num)]
    simp only [List.map_cons, List.map_nil]
    norm_num
  have hsop : mC3.states_outer_product
      = [((⟨100, 1, 1, 0⟩ : State), (⟨0, 1/2, 0, 1/2⟩ : State))] := rfl
  have hdj : ¬ (1 : ℚ) < |(⟨100, 1, 1, 0⟩ : State).J - (⟨0, 1/2, 0, 1/2⟩ : State).J| := by
    show ¬ (1 : ℚ) < |(1 : ℚ) - 1/2|
    rw [show (1 : ℚ) - 1/2 = 1/2 by norm_num, abs_of_pos (by norm_num : (0:ℚ) < 1/2)]
    norm_num
  have hz : ¬ ((⟨100, 1, 1, 0⟩ : State).J = 0 ∧ (⟨0, 1/2, 0, 1/2⟩ : State).J = 0) := by
    show ¬ ((1 : ℚ) = 0 ∧ (1/2 : ℚ) = 0)
    norm_num
  have p1 : pyInt ((-1 : ℚ) - -(1/2)) = 0 := by
    rw [show (-1 : ℚ) - -(1/2) = -(1/2) by norm_num]
    exact pyInt_eval_neg (by norm_num) (by norm_num) (by norm_num)
  have p2 : pyInt ((0 : ℚ) - -(1/2)) = 0 := by
    rw [show (0 : ℚ) - -(1/2) = 1/2 by norm_num]
    exact pyInt_eval_pos (by norm_num) (by norm_num) (by norm_num)
  have p3 : pyInt ((1 : ℚ) - -(1/2)) = 1 := by
    rw [show (1 : ℚ) - -(1/2) = 3/2 by norm_num]
    exact pyInt_eval_pos (by norm_num) (by norm_num) (by norm_num)
  have p4 : pyInt ((-1 : ℚ) - 1/2) = -1 := by
    rw [show (-1 : ℚ) - 1/2 = -(3/2) by norm_num]
    exact pyInt_eval_neg (by norm_num) (by norm_num) (by norm_num)
  have p5 : pyInt ((0 : ℚ) - 1/2) = 0 := by
    rw [show (0 : ℚ) - 1/2 = -(1/2) by norm_num]
    exact pyInt_eval_neg (by norm_num) (by norm_num) (by norm_num)
  have p6 : pyInt ((1 : ℚ) - 1/2) = 0 := by
    rw [show (1 : ℚ) - 1/2 = 1/2 by norm_num]
    exact pyInt_eval_pos (by norm_num) (by norm_num) (by norm_num)
  have h6 : (mC3.transitions 0 6000).length = 6 := by
    unfold Multiplet.transitions
    rw [hsop]
    simp only [List.map_cons, List.map_nil, List.flatten_cons, List.flatten_nil,
      List.append_nil]
    rw [if_neg hdj, if_neg hz, hl, hu]
    unfold listProd
    simp only [List.map_cons, List.map_nil, List.map_append, List.flatten_cons,
      List.flatten_nil, List.append_nil, List.cons_append, List.nil_append]
    rw [if_neg (by rw [p1]; norm_num), if_neg (by rw [p2]; norm_num),
      if_neg (by rw [p3]; norm_num), if_neg (by rw [p4]; norm_num),
      if_neg (by rw [p5]; norm_num), if_neg (by rw [p6]; norm_num)]
    simp
  have h4 : (mC3.transitionsStated 0 6000).length = 4 := by
    unfold Multiplet.transitionsStated
    rw [hsop]
    simp only [List.map_cons, List.map_nil, List.flatten_cons, List.flatten_nil,
      List.append_nil]
    rw [if_pos ⟨not_lt.mp hdj, hz⟩, hl, hu]
    unfold listProd
    simp only [List.map_cons, List.map_nil, List.map_append, List.flatten_cons,
      List.flatten_nil, List.append_nil, List.cons_append, List.nil_append]
    rw [if_pos (by rw [show (-1 : ℚ) - -(1/2) = -(1/2) by norm_num]; rw [abs_of_nonpos (by norm_num)]; norm_num),
      if_pos (by rw [show (0 : ℚ) - -(1/2) = 1/2 by norm_num]; rw [abs_of_nonneg (by norm_num)]; norm_num),
      if_neg (by rw [show (1 : ℚ) - -(1/2) = 3/2 by norm_num]; rw [abs_of_nonneg (by norm_num)]; norm_num),
      if_neg (by rw [show (-1 : ℚ) - 1/2 = -(3/2) by norm_num]; rw [abs_of_nonpos (by norm_num)]; norm_num),
      if_pos (by rw [show (0 : ℚ) - 1/2 = -(1/2) by norm_num]; rw [abs_of_nonpos (by norm_num)]; norm_num),
      if_pos (by rw [show (1 : ℚ) - 1/2 = 1/2 by norm_num]; rw [abs_of_nonneg (by norm_num)]; norm_num)]
    simp
  refine ⟨h6, h4, ?_⟩
  intro he
  rw [he, h4] at h6
  exact absurd h6 (by norm_num)

/-! ### Claim C7: the profile is a normalised absorption shape -/

lemma transitions_mem {m : Multiplet} {B T : ℚ} {tr : Transition}
    (h : tr ∈ m.transitions B T) :
    ∃ p, (p ∈ m.states_outer_product) ∧
      ∃ q, (q ∈ listProd (p.2.energies B) (p.1.energies B)) ∧
        ¬ 1 < |p.1.J - p.2.J| ∧
        tr = mkTransition ((10 : ℝ) ^ ((m.log_gf_get (p.2.J, p.1.J) : ℝ))) p.2 p.1
          (total_strength p.2 p.1 B) T q := by
  unfold Multiplet.transitions at h
  rcases List.mem_flatten.mp h with ⟨L, hL, htr⟩
  rcases List.mem_map.mp hL with ⟨p, hp, rfl⟩
  dsimp only at htr
  by_cases h1 : 1 < |p.1.J - p.2.J|
  · rw [if_pos h1] at htr
    exact absurd htr (List.not_mem_nil tr)
  rw [if_neg h1] at htr
  by_cases h2 : p.1.J = 0 ∧ p.2.J = 0
  · rw [if_pos h2] at htr
    exact absurd htr (List.not_mem_nil tr)
  rw [if_neg h2] at htr
  rcases List.mem_flatten.mp htr with ⟨L2, hL2, htr2⟩
  rcases List.mem_map.mp hL2 with ⟨q, hq, rfl⟩
  by_cases h3 : 1 < |pyInt (q.2.mJ - q.1.mJ)|
  · rw [if_pos h3] at htr2
    exact absurd htr2 (List.not_mem_nil tr)
  rw [if_neg h3] at htr2
  rcases List.mem_singleton.mp htr2 with rfl
  exact ⟨p, hp, q, hq, h1, rfl⟩

lemma mem_states_outer_product {m : Multiplet} {p : State × State}
    (hp : p ∈ m.states_outer_product) : p.1 ∈ m.Upper_states ∧ p.2 ∈ m.Lower_states := by
  rcases p with ⟨u, l⟩
  exact mem_listProd.mp hp

lemma transitions_fields_nonneg {m : Multiplet} {B T : ℚ}
    (hm : ∀ s : State, (s ∈ m.Lower_states ∨ s ∈ m.Upper_states) →
      0 ≤ s.J ∧ ∃ n : ℕ, s.J = n / 2)
    {tr : Transition} (h : tr ∈ m.transitions B T) : 0 ≤ tr.gf ∧ 0 ≤ tr.boltz := by
  rcases transitions_mem h with ⟨p, hp, q, hq, h1, rfl⟩
  rcases mem_states_outer_product hp with ⟨hpu, hpl⟩
  rcases hm p.2 (Or.inl hpl) with ⟨hJl, nl, hnl⟩
  rcases hm p.1 (Or.inr hpu) with ⟨hJu, nu, hnu⟩
  have habs : |p.1.J - p.2.J| ≤ 1 := not_lt.mp h1
  have hrel : ∀ a b : SubState, a ∈ p.2.energies B → b ∈ p.1.energies B →
      0 ≤ relVal p.2.J p.1.J a.mJ b.mJ := by
    intro a b ha hb
    rcases mem_energies_halfint hnl ha with ⟨ki, hki, hmi⟩
    rcases mem_energies_halfint hnu hb with ⟨kf, hkf, hmf⟩
    exact relVal_nonneg_core hki hmi hmf habs
  have htot : 0 ≤ total_strength p.2 p.1 B := by
    unfold total_strength
    apply List.sum_nonneg
    intro x hx
    rcases List.mem_map.mp hx with ⟨q', hq', rfl⟩
    rcases q' with ⟨a, b⟩
    rcases mem_listProd.mp hq' with ⟨ha, hb⟩
    exact hrel a b ha hb
  constructor
  · show 0 ≤ (10 : ℝ) ^ ((m.log_gf_get (p.2.J, p.1.J) : ℝ))
      * ((relVal p.2.J p.1.J q.1.mJ q.2.mJ : ℚ) : ℝ) / ((total_strength p.2 p.1 B : ℚ) : ℝ)
    apply div_nonneg
    · apply mul_nonneg
      · exact Real.rpow_nonneg (by norm_num) _
      · rcases q with ⟨a, b⟩
        rcases mem_listProd.mp hq with ⟨ha, hb⟩
        exact_mod_cast hrel a b ha hb
    · exact_mod_cast htot
  · exact (Real.exp_pos _).le

/-- C7 (corrected): each profile value is `exp(-strength · Σ contributions)`
and is strictly positive; it lies in `(0, 1]` provided `strength ≥ 0`, the
Voigt function is non-negative (true of the real `voigt_profile`), and every
level's `J` is a non-negative half-integer.  Negative `strength` (see the
counterexample) or the quarter-integer `J` states the constructor also
accepts can push values above 1. -/
theorem profile_mem_Ioc :
    ∀ (m : Multiplet) (V : ℝ → ℝ → ℝ → ℝ) (B : ℚ) (x : ℝ) (strength : ℝ)
      (res_l res_g : ℚ) (psi : ℝ) (T rv : ℚ),
      (∀ a b c : ℝ, 0 ≤ V a b c) →
      (∀ s : State, (s ∈ m.Lower_states ∨ s ∈ m.Upper_states) →
        0 ≤ s.J ∧ ∃ n : ℕ, s.J = n / 2) →
      0 ≤ strength →
      m.profile V B x strength res_l res_g psi T rv
          = Real.exp (-strength * (m.line_profile V B x res_l res_g psi T rv).sum) ∧
        0 < m.profile V B x strength res_l res_g psi T rv ∧
        m.profile V B x strength res_l res_g psi T rv ≤ 1 := by
  intro m V B x strength res_l res_g psi T rv hV hm hs
  refine ⟨rfl, Real.exp_pos _, ?_⟩
  unfold Multiplet.profile
  have hsum : 0 ≤ (m.line_profile V B x res_l res_g psi T rv).sum := by
    apply List.sum_nonneg
    intro y hy
    unfold Multiplet.line_profile at hy
    rcases List.mem_map.mp hy with ⟨tr, htr, rfl⟩
    rcases transitions_fields_nonneg hm htr with ⟨hgf, hboltz⟩
    apply mul_nonneg
    apply mul_nonneg
    apply mul_nonneg hboltz hgf
    · by_cases hd : tr.dmJ = 0
      · rw [if_pos hd]
        positivity
      · rw [if_neg hd]
        positivity
    · exact hV _ _ _
  calc Real.exp (-strength * (m.line_profile V B x res_l res_g psi T rv).sum)
      ≤ Real.exp 0 := Real.exp_le_exp.mpr (by nlinarith [hsum, hs])
    _ = 1 := Real.exp_zero

/-- C7 witness: the theorem applied to `mC7` with `V ≡ 0` and `strength = 0`. -/
theorem profile_mem_Ioc_witness :
    0 < mC7.profile (fun _ _ _ => (0:ℝ)) 0 0 0 1 1 1 6000 0 ∧
      mC7.profile (fun _ _ _ => (0:ℝ)) 0 0 0 1 1 1 6000 0 ≤ 1 := by
  have hm : ∀ s : State, (s ∈ mC7.Lower_states ∨ s ∈ mC7.Upper_states) →
      0 ≤ s.J ∧ ∃ n : ℕ, s.J = n / 2 := by
    intro s hs
    rcases hs with hs | hs
    · rcases List.mem_singleton.mp hs with rfl
      exact ⟨by norm_num, 0, by norm_num⟩
    · rcases List.mem_singleton.mp hs with rfl
      exact ⟨by norm_num, 2, by norm_num⟩
  have h := profile_mem_Ioc mC7 (fun _ _ _ => (0:ℝ)) 0 0 0 1 1 1 6000 0
    (fun _ _ _ => le_refl 0) hm (le_refl 0)
  exact ⟨h.2.1, h.2.2⟩

/-- C7 counterexample: with the non-negative (constant 1) Voigt stand-in and
`strength = -1`, the profile of `mC7` at any grid point evaluates to
`exp 1 > 1`: the claimed bound `profile ≤ 1` fails for negative `strength`,
which the claim quantifies over ("all call parameters"). -/
theorem profile_gt_one_cex :
    1 < mC7.profile (fun _ _ _ => (1:ℝ)) 0 0 (-1) 1 1 1 6000 0 := by
  have hl : (⟨0, 0, 0, 0⟩ : State).energies 0 = [⟨0, 0⟩] := by
    unfold State.energies State.mJs State.energy State.splitting
    dsimp only
    rw [show -(0:ℚ) = 0 by norm_num, arange_one (by norm_num) (by norm_num)]
    simp only [List.map_cons, List.map_nil]
    norm_num
  have hu : (⟨20000, 1, 1, 0⟩ : State).energies 0
      = [⟨-1, 20000⟩, ⟨0, 20000⟩, ⟨1, 20000⟩] := by
    unfold State.energies State.mJs State.energy State.splitting
    dsimp only
    rw [arange_three (by norm_num) (by norm_num) (by norm_num) (by norm_num)]
    simp only [List.map_cons, List.map_nil]
    norm_num
  have hpJ : pyInt ((1 : ℚ) - 0) = 1 := by
    rw [show (1 : ℚ) - 0 = 1 by norm_num]
    exact pyInt_one
  have pm1 : pyInt ((-1 : ℚ) - 0) = -1 := by
    rw [show (-1 : ℚ) - 0 = -1 by norm_num]
    exact pyInt_neg_one
  have pm2 : pyInt ((0 : ℚ) - 0) = 0 := by
    rw [show (0 : ℚ) - 0 = 0 by norm_num]
    exact pyInt_zero
  have pm3 : pyInt ((1 : ℚ) - 0) = 1 := hpJ
  have hrel1 : relVal (0 : ℚ) 1 0 (-1) = 1/2 := by
    rw [relVal, relative_strength_cases hpJ pm1]
    norm_num
  have hrel2 : relVal (0 : ℚ) 1 0 0 = 1 := by
    rw [relVal, relative_strength_cases hpJ pm2]
    norm_num
  have hrel3 : relVal (0 : ℚ) 1 0 1 = 1/2 := by
    rw [relVal, relative_strength_cases hpJ pm3]
    norm_num
  have htot : total_strength ⟨0, 0, 0, 0⟩ ⟨20000, 1, 1, 0⟩ 0 = 2 := by
    unfold total_strength
    rw [hl, hu]
    unfold listProd
    simp only [List.map_cons, List.map_nil, List.flatten_cons, List.flatten_nil,
      List.append_nil, List.sum_cons, List.sum_nil]
    show relVal (0 : ℚ) 1 0 (-1) + (relVal (0 : ℚ) 1 0 0 + (relVal (0 : ℚ) 1 0 1 + 0)) = 2
    rw [hrel1, hrel2, hrel3]
    norm_num
  have hgf0 : mC7.log_gf_get ((0 : ℚ), (1 : ℚ)) = 0 := by
    unfold mC7 Multiplet.log_gf_get
    simp [List.lookup]
  have hdj : ¬ (1 : ℚ) < |(⟨20000, 1, 1, 0⟩ : State).J - (⟨0, 0, 0, 0⟩ : State).J| := by
    show ¬ (1 : ℚ) < |(1 : ℚ) - 0|
    rw [show (1 : ℚ) - 0 = 1 by norm_num, abs_of_pos (by norm_num : (0:ℚ) < 1)]
    norm_num
  have hz : ¬ ((⟨20000, 1, 1, 0⟩ : State).J = 0 ∧ (⟨0, 0, 0, 0⟩ : State).J = 0) := by
    show ¬ ((1 : ℚ) = 0 ∧ (0 : ℚ) = 0)
    norm_num
  unfold Multiplet.profile Multiplet.line_profile Multiplet.transitions
  rw [show mC7.states_outer_product
    = [((⟨20000, 1, 1, 0⟩ : State), (⟨0, 0, 0, 0⟩ : State))] from rfl]
  simp only [List.map_cons, List.map_nil, List.flatten_cons, List.flatten_nil,
    List.append_nil]
  rw [hl, hu]
  unfold listProd
  simp only [List.map_cons, List.map_nil, List.map_append, List.flatten_cons,
    List.flatten_nil, List.append_nil, List.cons_append, List.nil_append]
  rw [htot]
  unfold mkTransition
  simp only [List.map_cons, List.map_nil, List.sum_cons, List.sum_nil]
  split_ifs with h1 h2 h3 h4 h5 h6 h7 h8 h9
  all_goals try (rw [show (1 : ℚ) - 0 = 1 by norm_num,
    abs_of_pos (by norm_num : (0:ℚ) < 1)] at h1; norm_num at h1)
  all_goals try (norm_num at h2)
  all_goals try (rw [pm1] at h3; norm_num at h3)
  all_goals try (rw [pm2] at h7; norm_num at h7)
  all_goals try (rw [pm3] at h9; norm_num at h9)
  simp only [List.cons_append, List.nil_append, List.append_nil, List.map_cons,
    List.map_nil, List.sum_cons, List.sum_nil]
  rw [hgf0, hrel1, hrel2, hrel3]
  rw [if_neg (by rw [pm1]; decide), if_pos pm2, if_neg (by rw [pm3]; decide)]
  push_cast
  rw [Real.rpow_zero]
  rw [show (-((0:ℝ) / (0.695 * 6000))) = 0 by norm_num, Real.exp_zero]
  have hsc : Real.sin 1 ^ 2 + Real.cos 1 ^ 2 = 1 := Real.sin_sq_add_cos_sq 1
  have key : ∀ a : ℝ, a = 1 → 1 < Real.exp a := by
    intro a ha
    rw [ha]
    have := Real.add_one_le_exp 1
    linarith
  apply key
  ring_nf
  linarith [hsc]
